import Mathlib

/-!
Shallow embedding of the `metastr` compile-time string library
(`src/include/metastr.hh`): fixed-capacity code-unit buffers, null-padding
tolerant equality, UTF-32/UTF-16 to UTF-8 transcoding, and concatenation.

A `metastr<Char, N>` holds exactly `N` code units (`Char str[N]{}`), the
last slot being a zero terminator for every literal-constructed instance.
We model a buffer as a `List Nat` of its code units (all the character
classes are unsigned fixed-width integers; cross-width comparison in the
source is by implicit numeric widening, which plain `Nat` equality models
exactly).  Machine-width overflow is made explicit with `% 2^32` (char32_t
arithmetic) and `% 256` (`static_cast` to an 8-bit unit).
-/

namespace Metastr

/-- A code-unit buffer: the `str` array of a `metastr<Char, N>` (length
of the list = declared capacity `N`). -/
abbrev Buf := List Nat

/-- The `metastr(Char const (&arr)[N])` constructor: `std::copy(arr, arr +
N - 1, str)` copies everything but the final slot into the zero-initialized
array, so the last slot of the result is always `0`. -/
def ofLit (arr : Buf) : Buf := arr.take (arr.length - 1) ++ [0]

/-- The member `operator==(Char_r const (&other)[N_r])`.  With `N` the
receiver's capacity and `N_r` the literal's: when `N <= N_r` the source runs
`std::equal(this->str, this->str + N - 2, other)` (comparing the first
`N - 2` units) and then checks `other[i] == 0` for `i` in `[N-1, N_r)`;
symmetrically otherwise. -/
def eqArr (s other : Buf) : Bool :=
  if s.length ≤ other.length then
    decide (s.take (s.length - 2) = other.take (s.length - 2))
      && (other.drop (s.length - 1)).all (fun c => c == 0)
  else
    decide (other.take (other.length - 2) = s.take (other.length - 2))
      && (s.drop (other.length - 1)).all (fun c => c == 0)

/-- The member `operator==(metastr<Char_r, N_r> const& other)`, which
forwards to the array overload on `other.str`. -/
def eqMs (s other : Buf) : Bool := eqArr s other

/-- The member `operator==(basic_string_view<Char_r> const& other)`: when
`N <= other.size()` it mirrors the array overload; otherwise it runs
`std::equal(other.begin(), other.end() - 1, this->str)` (first
`size() - 1` units) and then checks `this->str[i] == 0` for `i` in
`[other.size(), N)`. -/
def eqSV (s sv : Buf) : Bool :=
  if s.length ≤ sv.length then
    decide (s.take (s.length - 2) = sv.take (s.length - 2))
      && (sv.drop (s.length - 1)).all (fun c => c == 0)
  else
    decide (sv.take (sv.length - 1) = s.take (sv.length - 1))
      && (s.drop sv.length).all (fun c => c == 0)

/-- Modelled from the spec: the documented null-padding-tolerant equality
rule — the shorter buffer's entire non-terminator prefix (its first
`length - 1` units) must match the longer's corresponding prefix, and every
unit of the longer beyond that prefix must be zero.  Kept separate from
`eqArr` (the source's actual comparison) so the two can be compared. -/
def specEq (a b : Buf) : Bool :=
  if a.length ≤ b.length then
    decide (a.take (a.length - 1) = b.take (a.length - 1))
      && (b.drop (a.length - 1)).all (fun c => c == 0)
  else
    decide (b.take (b.length - 1) = a.take (b.length - 1))
      && (a.drop (b.length - 1)).all (fun c => c == 0)

/-! The transcoding engine, `metastr::details::transcoding`. -/

/-- Constant `LEAD_SURROGATE_MIN` from the source. -/
def LEAD_SURROGATE_MIN : Nat := 0xd800

/-- Constant `LEAD_SURROGATE_MAX` from the source. -/
def LEAD_SURROGATE_MAX : Nat := 0xdbff

/-- Constant `TRAIL_SURROGATE_MIN` from the source. -/
def TRAIL_SURROGATE_MIN : Nat := 0xdc00

/-- Constant `TRAIL_SURROGATE_MAX` from the source. -/
def TRAIL_SURROGATE_MAX : Nat := 0xdfff

/-- Constant `SURROGATE_OFFSET` from the source: the `char32_t` value
`0x10000 - (LEAD_SURROGATE_MIN << 10) - TRAIL_SURROGATE_MIN`, already
wrapped to 32 bits. -/
def SURROGATE_OFFSET : Nat := 0xfca02400

/-- Constant `CODE_POINT_MAX` from the source. -/
def CODE_POINT_MAX : Nat := 0x10ffff

/-- Truncation performed by `static_cast<u8_type>` when storing into an
8-bit output unit. -/
def u8cast (x : Nat) : Nat := x % 256

/-- The shared UTF-8 emission cascade of `utf32to8` and `utf16to8`: the
four `if (u32chr < 0x80) ... else` branches, transcribed bit for bit.  Note
that in the source's final (4-byte) branch the third stored unit is
`((u32chr >> 6) & 0x3f)` with no `| 0x80`. -/
def utf8units (c : Nat) : List Nat :=
  if c < 0x80 then
    [u8cast c]
  else if c < 0x800 then
    [u8cast ((c >>> 6) ||| 0xc0), u8cast ((c &&& 0x3f) ||| 0x80)]
  else if c < 0x10000 then
    [u8cast ((c >>> 12) ||| 0xe0), u8cast (((c >>> 6) &&& 0x3f) ||| 0x80),
     u8cast ((c &&& 0x3f) ||| 0x80)]
  else
    [u8cast ((c >>> 18) ||| 0xf0), u8cast (((c >>> 12) &&& 0x3f) ||| 0x80),
     u8cast ((c >>> 6) &&& 0x3f), u8cast ((c &&& 0x3f) ||| 0x80)]

/-- Modelled from the spec: standard UTF-8 bit-packing — the leading byte
carries the length via high bits `0xC0/0xE0/0xF0`, and every continuation
byte is `0x80` OR-ed with the next 6 low payload bits.  Kept separate from
`utf8units` (the source's emission) so the two can be compared. -/
def spec_utf8enc (c : Nat) : List Nat :=
  if c < 0x80 then
    [c]
  else if c < 0x800 then
    [(c >>> 6) ||| 0xc0, (c &&& 0x3f) ||| 0x80]
  else if c < 0x10000 then
    [(c >>> 12) ||| 0xe0, ((c >>> 6) &&& 0x3f) ||| 0x80, (c &&& 0x3f) ||| 0x80]
  else
    [(c >>> 18) ||| 0xf0, ((c >>> 12) &&& 0x3f) ||| 0x80,
     ((c >>> 6) &&& 0x3f) ||| 0x80, (c &&& 0x3f) ||| 0x80]

/-- The checked-mode validity test of `utf32to8` (`#ifndef NDEBUG` block):
`u32chr > CODE_POINT_MAX || u32chr >= LEAD_SURROGATE_MIN && u32chr <=
TRAIL_SURROGATE_MAX` (in C++, `&&` binds tighter than `||`). -/
def u32Invalid (c : Nat) : Bool :=
  decide (c > CODE_POINT_MAX)
    || (decide (LEAD_SURROGATE_MIN ≤ c) && decide (c ≤ TRAIL_SURROGATE_MAX))

/-- The stream of output units written by the `utf32to8` loop (unchecked
mode): the loop visits every slot of the input array in order and writes
`utf8units` of it at the running output index, which is the same as
concatenating the per-slot emissions. -/
def utf32emit (s : Buf) : List Nat := s.flatMap utf8units

/-- The `utf32to8` loop in checked mode: before emitting each slot it runs
the `u32Invalid` test and calls the non-returning `terminate()` on failure,
modelled as `none` (no value, of any kind, is ever produced). -/
def utf32emitChecked : Buf → Option (List Nat)
  | [] => some []
  | c :: rest =>
    if u32Invalid c then none
    else (utf32emitChecked rest).map (fun tl => utf8units c ++ tl)

/-- A zero-initialized buffer (`u8_type tmp_[...]{}`). -/
def zeros (n : Nat) : Buf := List.replicate n 0

/-- Function `utf32to8` (unchecked): the emitted units written into the
zero-initialized output buffer `u8_type tmp_[N * 4 - 3]{}`; slots past the
final write index keep their zeros.  (Writing past the buffer is undefined
behavior in the source; the safety theorem below shows the write index
stays within `4 * N - 3` for every terminator-ending input.) -/
def utf32to8 (s : Buf) : Buf :=
  utf32emit s ++ zeros (4 * s.length - 3 - (utf32emit s).length)

/-- Function `utf32to8` in checked mode, `none` meaning `terminate()`. -/
def utf32to8Checked (s : Buf) : Option Buf :=
  (utf32emitChecked s).map (fun e => e ++ zeros (4 * s.length - 3 - e.length))

/-- Test `c >= LEAD_SURROGATE_MIN && c <= LEAD_SURROGATE_MAX` from the
`utf16to8` loop. -/
def isLeadSurrogate (c : Nat) : Bool :=
  decide (LEAD_SURROGATE_MIN ≤ c) && decide (c ≤ LEAD_SURROGATE_MAX)

/-- Test `c >= TRAIL_SURROGATE_MIN && c <= TRAIL_SURROGATE_MAX` from the
`utf16to8` loop (its negation is the checked-mode trail validation
`trail < TRAIL_SURROGATE_MIN || trail > TRAIL_SURROGATE_MAX`). -/
def isTrailSurrogate (c : Nat) : Bool :=
  decide (TRAIL_SURROGATE_MIN ≤ c) && decide (c ≤ TRAIL_SURROGATE_MAX)

/-- Outcome of the `utf16to8` decode loop: a produced output stream, a
call of the non-returning `terminate()`, or a read past the end of the
input array (undefined behavior in the source). -/
inductive U16Res where
  | ok (out : List Nat)
  | abort
  | oob
deriving DecidableEq

/-- The `utf16to8` decode loop over the remaining input, parameterized by
the build mode (`checked = true` keeps the `#ifndef NDEBUG` blocks).  Each
iteration reads `u16str.str[i++] & 0xffff`; in checked mode a value in the
trail-surrogate range aborts; a value in the lead-surrogate range makes the
loop read the next unit (`i >= N` aborts first in checked mode; with no
next unit the unchecked read is out of bounds), validate it as a trail
surrogate in checked mode, and combine `(u32chr << 10) + trail +
SURROGATE_OFFSET` in wrapping 32-bit arithmetic; the resulting scalar goes
through the same `utf8units` emission cascade. -/
def utf16emit (checked : Bool) : Buf → U16Res
  | [] => .ok []
  | u :: rest =>
    if checked && isTrailSurrogate (u &&& 0xffff) then
      .abort
    else if isLeadSurrogate (u &&& 0xffff) then
      match rest with
      | [] => if checked then .abort else .oob
      | t :: rest2 =>
        if checked && !isTrailSurrogate (t &&& 0xffff) then
          .abort
        else
          match utf16emit checked rest2 with
          | .ok out =>
            .ok (utf8units ((((u &&& 0xffff) <<< 10) + (t &&& 0xffff) + SURROGATE_OFFSET) % 4294967296) ++ out)
          | r => r
    else
      match utf16emit checked rest with
      | .ok out => .ok (utf8units (u &&& 0xffff) ++ out)
      | r => r

/-- Function `utf16to8`: the emitted units written into the
zero-initialized buffer `u8_type tmp_[4 * N - 3]{}`; `none` when the loop
terminates the process (or, uncheckedly, reads out of bounds). -/
def utf16to8 (checked : Bool) (s : Buf) : Option Buf :=
  match utf16emit checked s with
  | .ok e => some (e ++ zeros (4 * s.length - 3 - e.length))
  | _ => none

/-- Function `code_cvt` in the same-encoding-family case: `Char_r tmp_[N]{};
std::copy(str.str, str.str + N - 1, tmp_); return metastr{tmp_};` — a
unit-for-unit copy of the first `N - 1` units, final slot zero. -/
def code_cvt_same (s : Buf) : Buf := s.take (s.length - 1) ++ [0]

/-! The concatenation engine, `metastr::concat`. -/

/-- One `std::copy(src, src + len, res.str + off)` into the output
buffer. -/
def copyInto (buf : Buf) (off : Nat) (src : Buf) : Buf :=
  buf.take off ++ src ++ buf.drop (off + src.length)

/-- The fold-expression of `concat`: each input's first `len - 1` units are
copied at the running offset, which then advances by that input's logical
length, strictly left to right. -/
def concatGo (buf : Buf) (off : Nat) : List Buf → Buf
  | [] => buf
  | s :: ss => concatGo (copyInto buf off (s.take (s.length - 1))) (off + (s.length - 1)) ss

/-- Function `concat` over one or more same-class metastrings: a
zero-initialized buffer of size `Str1::len + (Strs::len + ...) -
sizeof...(Strs)` filled by the left-to-right copies. -/
def concat (ss : List Buf) : Buf :=
  concatGo (zeros ((ss.map List.length).sum - (ss.length - 1))) 0 ss

/-- The non-terminator content of each input, in order: what `concat`
copies. -/
def pieces (ss : List Buf) : List Buf := ss.map (fun s => s.take (s.length - 1))

/-! Theorems. -/

/-- One unfolding step of `utf16emit` on a nonempty input. -/
lemma utf16emit_cons (checked : Bool) (u : Nat) (rest : Buf) :
    utf16emit checked (u :: rest) =
      (if checked && isTrailSurrogate (u &&& 0xffff) then U16Res.abort
      else if isLeadSurrogate (u &&& 0xffff) then
        match rest with
        | [] => if checked then U16Res.abort else U16Res.oob
        | t :: rest2 =>
          if checked && !isTrailSurrogate (t &&& 0xffff) then U16Res.abort
          else
            match utf16emit checked rest2 with
            | .ok out =>
              .ok (utf8units ((((u &&& 0xffff) <<< 10) + (t &&& 0xffff) + SURROGATE_OFFSET) % 4294967296) ++ out)
            | r => r
      else
        match utf16emit checked rest with
        | .ok out => .ok (utf8units (u &&& 0xffff) ++ out)
        | r => r) := by
  conv_lhs => rw [utf16emit.eq_def]
  rfl

/-- Claim C1.  The claim says `A == B` is true iff the shorter operand's
entire non-terminator prefix (its first `length - 1` units) matches the
longer's corresponding prefix and everything beyond is zero.  The source
compares only the first `length - 2` units (`std::equal(str, str + N - 2,
other)`), so the last content unit of the shorter operand is never
compared with anything: `metastr("abc") == metastr("abd")` evaluates to
`true` although the prefixes differ at their third unit, and likewise
against the string view `"abd"`.  The claim's own three examples do hold,
but the quantified rule (`specEq`) is violated. -/
theorem eq_skips_last_content_unit :
    eqMs (ofLit [97, 98, 99, 0]) (ofLit [97, 98, 100, 0]) = true
    ∧ eqSV (ofLit [97, 98, 99, 0]) [97, 98, 100] = true
    ∧ specEq (ofLit [97, 98, 99, 0]) (ofLit [97, 98, 100, 0]) = false
    ∧ eqMs (ofLit [97, 98, 99, 0]) (ofLit [97, 98, 99, 0, 0, 0]) = true
    ∧ eqMs (ofLit [97, 98, 99, 0]) (ofLit [97, 98, 99, 100, 0]) = false
    ∧ eqMs (ofLit [97, 98, 99, 0]) (ofLit [97, 98, 0]) = false := by decide

/-- Claim C2.  The range selection (1/2/3/4 units for `<0x80`, `<0x800`,
`<0x10000`, else) is as claimed, but the emitted bytes are not standard
UTF-8 bit-packing in the 4-byte branch: the source stores the third unit
as `((u32chr >> 6) & 0x3f)` without `| 0x80`, so for the scalar `0x10000`
the code emits `F0 90 00 80` where the claimed packing (`spec_utf8enc`)
gives `F0 90 80 80`. -/
theorem utf8_fourbyte_drops_continuation_marker :
    utf8units 0x10000 = [0xF0, 0x90, 0x00, 0x80]
    ∧ spec_utf8enc 0x10000 = [0xF0, 0x90, 0x80, 0x80]
    ∧ utf8units 0x10000 ≠ spec_utf8enc 0x10000 := by decide

/-- Claim C3.  The surrogate-pair combination `(lead << 10) + trail +
SURROGATE_OFFSET` (wrapping 32-bit arithmetic) does recover the scalar
`0x10000 + (lead - 0xD800) * 0x400 + (trail - 0xDC00)` — for the pair
`(0xD800, 0xDC00)` it yields `0x10000` — but the emitted 4-byte sequence
is not the correct UTF-8 for that scalar: the third byte misses the `0x80`
continuation marker, `F0 90 00 80` instead of `F0 90 80 80`. -/
theorem utf16_pair_recovers_scalar_but_misencodes :
    ((((0xD800 &&& 0xffff) <<< 10) + (0xDC00 &&& 0xffff) + SURROGATE_OFFSET) % 4294967296
      = 0x10000 + (0xD800 - 0xD800) * 0x400 + (0xDC00 - 0xDC00))
    ∧ utf16emit true [0xD800, 0xDC00, 0] = U16Res.ok [0xF0, 0x90, 0x00, 0x80, 0x00]
    ∧ utf16to8 true [0xD800, 0xDC00, 0] = some [0xF0, 0x90, 0x00, 0x80, 0, 0, 0, 0, 0]
    ∧ spec_utf8enc 0x10000 = [0xF0, 0x90, 0x80, 0x80]
    ∧ utf8units 0x10000 ≠ [0xF0, 0x90, 0x80, 0x80] := by decide

/-- Helper for claim C4: the checked `utf32to8` loop reaches every slot of
the input (it has no early exit), so one invalid slot anywhere forces
`terminate()`. -/
lemma utf32emitChecked_eq_none (s : Buf) (c : Nat) (hc : c ∈ s)
    (hbad : u32Invalid c = true) : utf32emitChecked s = none := by
  induction s with
  | nil => cases hc
  | cons a rest ih =>
    rw [utf32emitChecked]
    rcases List.mem_cons.mp hc with h | h
    · subst h
      simp [hbad]
    · by_cases ha : u32Invalid a
      · simp [ha]
      · simp [ha, ih h]

/-- Claim C4.  In checked mode, converting a UTF-32 buffer containing a
surrogate value (`0xD800`–`0xDFFF`) or a value above `0x10FFFF` calls
`terminate()` (modelled `none`): no value of any kind — error code,
exception or partial result — is ever produced. -/
theorem utf32to8Checked_aborts_on_invalid (s : Buf) (c : Nat) (hc : c ∈ s)
    (hbad : u32Invalid c = true) : utf32to8Checked s = none := by
  unfold utf32to8Checked
  rw [utf32emitChecked_eq_none s c hc hbad]
  rfl

/-- Witness for claim C4 at the concrete input `{0xD800, 0}` (the spec's
own scenario). -/
theorem utf32to8Checked_aborts_on_invalid_witness :
    utf32to8Checked [0xD800, 0] = none :=
  utf32to8Checked_aborts_on_invalid [0xD800, 0] 0xD800 (by decide) (by decide)

/-- Claim C7.  Equality across character widths is purely numeric: the
UTF-16 buffer of the text "滑稽" (`[0x6ED1, 0x7A3D, 0]`) transcodes to
exactly the UTF-8 buffer `[0xE6, 0xBB, 0x91, 0xE7, 0xA8, 0xBD, 0]` — the
same text — yet direct equality between the two buffers is false (their
first code units `0x6ED1` and `0xE6` already differ numerically). -/
theorem cross_width_equality_is_numeric :
    utf16emit false [0x6ED1, 0x7A3D, 0] = U16Res.ok [0xE6, 0xBB, 0x91, 0xE7, 0xA8, 0xBD, 0]
    ∧ eqMs [0x6ED1, 0x7A3D, 0] [0xE6, 0xBB, 0x91, 0xE7, 0xA8, 0xBD, 0] = false := by decide

/-- Each copied piece has exactly the logical length of its input. -/
lemma pieces_map_length (ss : List Buf) :
    (pieces ss).map List.length = ss.map (fun s => s.length - 1) := by
  simp only [pieces, List.map_map]
  refine List.map_congr_left fun s _ => ?_
  simp [Nat.min_eq_left (Nat.sub_le s.length 1)]

/-- Nonempty inputs make the input count a lower bound on the summed
capacities. -/
lemma length_le_sum_lengths (ss : List Buf) (hNon : ∀ s ∈ ss, s ≠ []) :
    ss.length ≤ (ss.map List.length).sum := by
  induction ss with
  | nil => simp
  | cons s rest ih =>
    have h1 : 1 ≤ s.length := List.length_pos.mpr (hNon s (by simp))
    have h2 := ih fun t ht => hNon t (List.mem_cons_of_mem s ht)
    simp only [List.map_cons, List.sum_cons, List.length_cons]
    omega

/-- The `concat` copy loop, started on a buffer whose first `w.length`
units are already in place and whose tail is zeros, appends the pieces in
order and leaves the remaining zeros untouched. -/
lemma concatGo_spec (ss : List Buf) (w : Buf) (m : Nat)
    (h : ((pieces ss).map List.length).sum ≤ m) :
    concatGo (w ++ zeros m) w.length ss
      = w ++ (pieces ss).flatten ++ zeros (m - ((pieces ss).map List.length).sum) := by
  induction ss generalizing w m with
  | nil => simp [concatGo, pieces]
  | cons s rest ih =>
    have hp : (s.take (s.length - 1)).length = s.length - 1 :=
      List.length_take_of_le (Nat.sub_le s.length 1)
    have hsum : (s.length - 1) + ((pieces rest).map List.length).sum
        = ((pieces (s :: rest)).map List.length).sum := by
      simp [pieces, Nat.min_eq_left (Nat.sub_le s.length 1)]
    have hle : ((pieces rest).map List.length).sum ≤ m - (s.length - 1) := by omega
    have hcopy : copyInto (w ++ zeros m) w.length (s.take (s.length - 1))
        = (w ++ s.take (s.length - 1)) ++ zeros (m - (s.length - 1)) := by
      unfold copyInto
      rw [List.take_left, hp, List.drop_append, zeros, List.drop_replicate]
      simp [zeros, List.append_assoc]
    have hlen : (w ++ s.take (s.length - 1)).length = w.length + (s.length - 1) := by
      simp [hp]
    calc concatGo (w ++ zeros m) w.length (s :: rest)
        = concatGo ((w ++ s.take (s.length - 1)) ++ zeros (m - (s.length - 1)))
            (w.length + (s.length - 1)) rest := by
          rw [concatGo, hcopy]
      _ = concatGo ((w ++ s.take (s.length - 1)) ++ zeros (m - (s.length - 1)))
            (w ++ s.take (s.length - 1)).length rest := by rw [hlen]
      _ = (w ++ s.take (s.length - 1)) ++ (pieces rest).flatten
            ++ zeros (m - (s.length - 1) - ((pieces rest).map List.length).sum) := ih _ _ hle
      _ = w ++ (pieces (s :: rest)).flatten
            ++ zeros (m - ((pieces (s :: rest)).map List.length).sum) := by
          rw [← hsum, Nat.sub_sub]
          simp [pieces, List.append_assoc]

/-- Summed logical lengths versus summed capacities, for nonempty
inputs. -/
lemma sum_pred_lengths (ss : List Buf) (hNon : ∀ s ∈ ss, s ≠ []) :
    (ss.map (fun s => s.length - 1)).sum = (ss.map List.length).sum - ss.length := by
  induction ss with
  | nil => simp
  | cons s rest ih =>
    have hs : 1 ≤ s.length := List.length_pos.mpr (hNon s (by simp))
    have hr := length_le_sum_lengths rest fun t ht => hNon t (List.mem_cons_of_mem s ht)
    have h3 := ih fun t ht => hNon t (List.mem_cons_of_mem s ht)
    simp only [List.map_cons, List.sum_cons, List.length_cons]
    omega

/-- The buffer size `Σ length_i - (count - 1)` equals the summed piece
lengths plus one terminator slot, for one or more nonempty inputs. -/
lemma concat_capacity_eq (ss : List Buf) (hne : ss ≠ []) (hNon : ∀ s ∈ ss, s ≠ []) :
    (ss.map List.length).sum - (ss.length - 1)
      = ((pieces ss).map List.length).sum + 1 := by
  have h1 := length_le_sum_lengths ss hNon
  have h2 := sum_pred_lengths ss hNon
  have h3 : 1 ≤ ss.length := List.length_pos.mpr hne
  rw [pieces_map_length, h2]
  omega

/-- Shared form of the result of `concat`: the pieces joined in order
followed by the one untouched terminator slot. -/
lemma concat_eq_join (ss : List Buf) (hne : ss ≠ []) (hNon : ∀ s ∈ ss, s ≠ []) :
    concat ss = (pieces ss).flatten ++ [0] := by
  unfold concat
  have hcap := concat_capacity_eq ss hne hNon
  have h := concatGo_spec ss [] ((ss.map List.length).sum - (ss.length - 1))
    (by omega)
  simpa [hcap, zeros] using h

/-- Claim C5.  `concat` of one or more metastrings yields the buffer whose
content is each input's first `length_i - 1` units laid out strictly left
to right at the running prefix-sum offsets (that is, the flattening of the
pieces) followed by the zero terminator slot, and whose declared length is
`Σ (length_i - 1) + 1`. -/
theorem concat_pieces_and_capacity (ss : List Buf) (hne : ss ≠ [])
    (hNon : ∀ s ∈ ss, s ≠ []) :
    concat ss = (pieces ss).flatten ++ [0]
    ∧ (concat ss).length = (ss.map (fun s => s.length - 1)).sum + 1 := by
  have hj := concat_eq_join ss hne hNon
  refine ⟨hj, ?_⟩
  rw [hj]
  simp only [List.length_append, List.length_flatten, List.length_cons, List.length_nil]
  rw [pieces_map_length]

/-- Witness for claim C5: the spec's own scenario
`concat(metastr("abc"), metastr("def")) == "abcdef"`, declared length 7. -/
theorem concat_pieces_and_capacity_witness :
    concat [[97, 98, 99, 0], [100, 101, 102, 0]]
      = (pieces [[97, 98, 99, 0], [100, 101, 102, 0]]).flatten ++ [0]
    ∧ (concat [[97, 98, 99, 0], [100, 101, 102, 0]]).length
      = ([[97, 98, 99, 0], [100, 101, 102, 0]].map (fun s => s.length - 1)).sum + 1 :=
  concat_pieces_and_capacity [[97, 98, 99, 0], [100, 101, 102, 0]] (by simp) (by decide)

/-- Dropping the final slot of a buffer that ends in its terminator
recovers the content before it. -/
lemma take_len_sub_one_append_zero (w : List Nat) :
    (w ++ [0]).take ((w ++ [0]).length - 1) = w := by
  have h : (w ++ [0]).length - 1 = w.length := by simp
  rw [h, List.take_left]

/-- Claim C6.  Concatenation is associative in content — `concat(A, B, C)`
equals `concat(concat(A, B), C)` buffer for buffer — and length-additive:
`length(concat(A, B)) - 1 = (length(A) - 1) + (length(B) - 1)`. -/
theorem concat_assoc_and_length_additive (a b c : Buf)
    (ha : a ≠ []) (hb : b ≠ []) (hc : c ≠ []) :
    concat [a, b, c] = concat [concat [a, b], c]
    ∧ (concat [a, b]).length - 1 = (a.length - 1) + (b.length - 1) := by
  have hNon2 : ∀ s ∈ [a, b], s ≠ [] := by
    intro s hs
    simp only [List.mem_cons, List.not_mem_nil, or_false] at hs
    rcases hs with rfl | rfl
    · exact ha
    · exact hb
  have hab := concat_eq_join [a, b] (by simp) hNon2
  have hlen2 : (concat [a, b]).length = ((a.length - 1) + (b.length - 1)) + 1 := by
    rw [hab]
    simp [pieces, Nat.min_eq_left (Nat.sub_le a.length 1),
      Nat.min_eq_left (Nat.sub_le b.length 1)]
    omega
  refine ⟨?_, by omega⟩
  have habne : concat [a, b] ≠ [] := by
    rw [hab]
    simp
  have h3 := concat_eq_join [a, b, c] (by simp) (by
    intro s hs
    simp only [List.mem_cons, List.not_mem_nil, or_false] at hs
    rcases hs with rfl | rfl | rfl
    · exact ha
    · exact hb
    · exact hc)
  have h4 := concat_eq_join [concat [a, b], c] (by simp) (by
    intro s hs
    simp only [List.mem_cons, List.not_mem_nil, or_false] at hs
    rcases hs with rfl | rfl
    · exact habne
    · exact hc)
  have key : (concat [a, b]).take ((concat [a, b]).length - 1)
      = a.take (a.length - 1) ++ b.take (b.length - 1) := by
    rw [hab]
    have hpp : (pieces [a, b]).flatten = a.take (a.length - 1) ++ b.take (b.length - 1) := by
      simp [pieces]
    rw [hpp]
    exact take_len_sub_one_append_zero _
  rw [h3, h4]
  simp only [pieces, List.map_cons, List.map_nil, List.flatten_cons, List.flatten_nil,
    List.append_nil]
  rw [key]
  simp [List.append_assoc]

/-- Witness for claim C6 at `"ab"`, `"cd"`, `"e"`. -/
theorem concat_assoc_and_length_additive_witness :
    concat [[97, 98, 0], [99, 100, 0], [101, 0]]
      = concat [concat [[97, 98, 0], [99, 100, 0]], [101, 0]]
    ∧ (concat [[97, 98, 0], [99, 100, 0]]).length - 1
      = ([97, 98, 0].length - 1) + ([99, 100, 0].length - 1) :=
  concat_assoc_and_length_additive [97, 98, 0] [99, 100, 0] [101, 0]
    (by decide) (by decide) (by decide)

/-- Every branch of the emission cascade writes at most 4 units. -/
lemma utf8units_length_le (c : Nat) : (utf8units c).length ≤ 4 := by
  unfold utf8units
  split
  · simp
  · split
    · simp
    · split <;> simp

/-- A scalar below `0x10000` takes one of the first three branches, at
most 3 units. -/
lemma utf8units_length_le_three (c : Nat) (h : c < 0x10000) :
    (utf8units c).length ≤ 3 := by
  unfold utf8units
  split
  · simp
  · split
    · simp
    · simp

/-- The terminator scalar emits exactly one (zero) unit. -/
lemma utf8units_zero : utf8units 0 = [0] := by decide

/-- Helper for claims C8 and C10: over an input ending in its terminator
slot, the `utf32to8` loop emits at most `4 * N - 3` units — each of the
`N - 1` content slots at most 4, the final zero slot exactly 1. -/
lemma utf32emit_length_le (s : Buf) (h : s.getLast? = some 0) :
    (utf32emit s).length ≤ 4 * s.length - 3 := by
  induction s with
  | nil => cases h
  | cons a rest ih =>
    cases rest with
    | nil =>
      have ha : a = 0 := by simpa using h
      subst ha
      simp [utf32emit, utf8units_zero]
    | cons b rest2 =>
      have h2 : (b :: rest2).getLast? = some 0 := by
        rwa [List.getLast?_cons_cons] at h
      have hb := ih h2
      have ha := utf8units_length_le a
      simp only [utf32emit, List.flatMap_cons, List.length_append] at hb ha ⊢
      simp only [List.length_cons] at hb ⊢
      omega

/-- Helper for claims C8 and C10: over an input ending in its terminator
slot, the unchecked `utf16to8` loop completes with no out-of-bounds read
(pairs never extend past the final zero slot, which is no lead surrogate)
and emits at most `3 * N - 2` units: single code units emit at most 3,
surrogate pairs at most 4 for two consumed slots, the final zero exactly
one. -/
lemma utf16emit_unchecked_ok :
    ∀ n (s : Buf), s.length ≤ n → s.getLast? = some 0 →
      ∃ out, utf16emit false s = U16Res.ok out ∧ out.length ≤ 3 * s.length - 2 := by
  intro n
  induction n with
  | zero =>
    intro s hs h
    cases s with
    | nil => cases h
    | cons a rest => simp at hs
  | succ n ih =>
    intro s hs h
    match s with
    | [] => cases h
    | [u] =>
      have hu : u = 0 := by simpa using h
      subst hu
      exact ⟨[0], by decide, by norm_num⟩
    | u :: t :: rest2 =>
      rw [utf16emit]
      simp only [Bool.false_and, Bool.false_eq_true, if_false]
      by_cases hlead : isLeadSurrogate (u &&& 0xffff) = true
      · rw [if_pos hlead]
        cases rest2 with
        | nil =>
          have ht : t = 0 := by simpa using h
          subst ht
          refine ⟨utf8units ((((u &&& 0xffff) <<< 10) + (0 &&& 0xffff) + SURROGATE_OFFSET)
            % 4294967296) ++ [], ?_, ?_⟩
          · rfl
          · have := utf8units_length_le ((((u &&& 0xffff) <<< 10) + (0 &&& 0xffff)
              + SURROGATE_OFFSET) % 4294967296)
            simp only [List.append_nil]
            simp only [List.length_cons, List.length_nil]
            omega
        | cons v rest3 =>
          have h2 : (v :: rest3).getLast? = some 0 := by
            rw [List.getLast?_cons_cons, List.getLast?_cons_cons] at h
            exact h
          have hlen : (v :: rest3).length ≤ n := by
            simp only [List.length_cons] at hs ⊢
            omega
          obtain ⟨out2, hout2, hb2⟩ := ih (v :: rest3) hlen h2
          rw [hout2]
          refine ⟨_, rfl, ?_⟩
          have h4 := utf8units_length_le ((((u &&& 0xffff) <<< 10) + (t &&& 0xffff)
            + SURROGATE_OFFSET) % 4294967296)
          simp only [List.length_append, List.length_cons] at hb2 ⊢
          omega
      · rw [if_neg hlead]
        have h2 : (t :: rest2).getLast? = some 0 := by
          rwa [List.getLast?_cons_cons] at h
        have hlen : (t :: rest2).length ≤ n := by
          simp only [List.length_cons] at hs ⊢
          omega
        obtain ⟨out2, hout2, hb2⟩ := ih (t :: rest2) hlen h2
        rw [hout2]
        refine ⟨_, rfl, ?_⟩
        have hmask : u &&& 0xffff < 0x10000 := by
          have := Nat.and_le_right (n := u) (m := 0xffff)
          omega
        have h4 := utf8units_length_le_three (u &&& 0xffff) hmask
        simp only [List.length_append, List.length_cons] at hb2 ⊢
        omega

/-- Claim C10.  For an input buffer ending in its terminator slot, neither
transcoder's write index ever passes the `4 * N - 3`-unit output buffer:
the total number of units emitted (the final write index) is at most
`4 * N - 3` for `utf32to8` and for `utf16to8`, which moreover completes
without out-of-bounds reads in unchecked mode.  (A checked run aborts
after writing a prefix of the same stream, so its writes are bounded a
fortiori.) -/
theorem transcoders_write_within_capacity (s : Buf) (h : s.getLast? = some 0) :
    (utf32emit s).length ≤ 4 * s.length - 3
    ∧ ∃ out, utf16emit false s = U16Res.ok out ∧ out.length ≤ 4 * s.length - 3 := by
  have h32 := utf32emit_length_le s h
  obtain ⟨out, hout, hb⟩ := utf16emit_unchecked_ok s.length s (Nat.le_refl _) h
  have hpos : 1 ≤ s.length := by
    cases s with
    | nil => cases h
    | cons a rest => simp
  exact ⟨h32, out, hout, by omega⟩

/-- Witness for claim C10 at the one-slot buffer `{0}`. -/
theorem transcoders_write_within_capacity_witness :
    (utf32emit [0]).length ≤ 4 * [0].length - 3
    ∧ ∃ out, utf16emit false [0] = U16Res.ok out ∧ out.length ≤ 4 * [0].length - 3 :=
  transcoders_write_within_capacity [0] (by decide)

/-- Claim C8.  For an input metastring buffer (one ending in its
terminator slot) of declared length `N`: the same-family `code_cvt` is a
unit-for-unit copy of unchanged capacity `N`, and the 32→8 and 16→8
conversions produce buffers of declared capacity exactly `4 * N - 3`. -/
theorem code_cvt_capacity (s : Buf) (h : s.getLast? = some 0) :
    code_cvt_same s = s
    ∧ (code_cvt_same s).length = s.length
    ∧ (utf32to8 s).length = 4 * s.length - 3
    ∧ ∃ out, utf16to8 false s = some out ∧ out.length = 4 * s.length - 3 := by
  have hne : s ≠ [] := by
    cases s with
    | nil => cases h
    | cons a rest => simp
  have hlast : s.getLast hne = 0 := by
    rw [List.getLast?_eq_getLast_of_ne_nil hne] at h
    exact Option.some_injective _ h
  have hsame : code_cvt_same s = s := by
    unfold code_cvt_same
    rw [← List.dropLast_eq_take, ← hlast]
    exact List.dropLast_append_getLast hne
  have h32 := utf32emit_length_le s h
  have h32len : (utf32to8 s).length = 4 * s.length - 3 := by
    unfold utf32to8
    simp only [List.length_append, zeros, List.length_replicate]
    omega
  obtain ⟨out, hout, hb⟩ := utf16emit_unchecked_ok s.length s (Nat.le_refl _) h
  have hpos : 1 ≤ s.length := List.length_pos.mpr hne
  refine ⟨hsame, by rw [hsame], h32len, out ++ zeros (4 * s.length - 3 - out.length), ?_, ?_⟩
  · unfold utf16to8
    rw [hout]
  · simp only [List.length_append, zeros, List.length_replicate]
    omega

/-- Witness for claim C8 at the one-slot buffer `{0}`. -/
theorem code_cvt_capacity_witness :
    code_cvt_same [0] = [0]
    ∧ (code_cvt_same [0]).length = [0].length
    ∧ (utf32to8 [0]).length = 4 * [0].length - 3
    ∧ ∃ out, utf16to8 false [0] = some out ∧ out.length = 4 * [0].length - 3 :=
  code_cvt_capacity [0] (by decide)

/-- The lead- and trail-surrogate ranges are disjoint. -/
lemma lead_not_trail (x : Nat) (h : isLeadSurrogate x = true) :
    isTrailSurrogate x = false := by
  simp only [isLeadSurrogate, isTrailSurrogate, LEAD_SURROGATE_MIN, LEAD_SURROGATE_MAX,
    TRAIL_SURROGATE_MIN, TRAIL_SURROGATE_MAX, Bool.and_eq_true, decide_eq_true_eq] at h ⊢
  simp only [Bool.and_eq_false_iff, decide_eq_false_iff_not, not_le]
  omega

/-- Bounded-length version of the checked-mode no-out-of-bounds-read
property. -/
lemma utf16_checked_no_oob_aux :
    ∀ n (s : Buf), s.length ≤ n → utf16emit true s ≠ U16Res.oob := by
  intro n
  induction n with
  | zero =>
    intro s hs
    cases s with
    | nil => simp [utf16emit]
    | cons a rest => simp at hs
  | succ n ih =>
    intro s hs
    cases s with
    | nil => simp [utf16emit]
    | cons u rest =>
      rw [utf16emit_cons]
      by_cases h1 : isTrailSurrogate (u &&& 0xffff) = true
      · simp [h1]
      · rw [Bool.true_and, if_neg (by simp [h1])]
        by_cases h2 : isLeadSurrogate (u &&& 0xffff) = true
        · rw [if_pos h2]
          cases rest with
          | nil => simp
          | cons t rest2 =>
            by_cases h3 : isTrailSurrogate (t &&& 0xffff) = true
            · have hn : rest2.length ≤ n := by
                simp only [List.length_cons] at hs
                omega
              cases heq : utf16emit true rest2 with
              | ok out => simp [h3, heq]
              | abort => simp [h3, heq]
              | oob => exact absurd heq (ih rest2 hn)
            · simp [h3]
        · rw [if_neg h2]
          have hn : rest.length ≤ n := by
            simp only [List.length_cons] at hs
            omega
          cases heq : utf16emit true rest with
          | ok out => simp [heq]
          | abort => simp [heq]
          | oob => exact absurd heq (ih rest hn)

/-- Claim C9 counterexample (the claim's negation).  The claim asserts
that some checked-mode UTF-16 input makes the decoder read past the end of
the buffer.  In fact the checked path guards the trail read with the
`i >= N` test (`fatal_error::terminate()` when a lead surrogate is the
final unit), so no input whatsoever produces an out-of-bounds read in
checked mode. -/
theorem utf16_checked_never_reads_oob : ¬ ∃ s : Buf, utf16emit true s = U16Res.oob := by
  rintro ⟨s, h⟩
  exact utf16_checked_no_oob_aux s.length s (Nat.le_refl _) h

/-- Bounded-length version of: a lead surrogate in the final slot makes
the checked decoder abort. -/
lemma utf16_checked_lead_at_end_aborts_aux :
    ∀ n (s : Buf) (c : Nat), s.length ≤ n → isLeadSurrogate (c &&& 0xffff) = true →
      utf16emit true (s ++ [c]) = U16Res.abort := by
  intro n
  induction n with
  | zero =>
    intro s c hs hc
    cases s with
    | nil =>
      rw [List.nil_append, utf16emit_cons]
      simp [lead_not_trail _ hc, hc]
    | cons a rest => simp at hs
  | succ n ih =>
    intro s c hs hc
    cases s with
    | nil =>
      rw [List.nil_append, utf16emit_cons]
      simp [lead_not_trail _ hc, hc]
    | cons u rest =>
      rw [List.cons_append, utf16emit_cons]
      by_cases h1 : isTrailSurrogate (u &&& 0xffff) = true
      · simp [h1]
      · rw [Bool.true_and, if_neg (by simp [h1])]
        by_cases h2 : isLeadSurrogate (u &&& 0xffff) = true
        · rw [if_pos h2]
          cases rest with
          | nil =>
            simp only [List.nil_append]
            simp [lead_not_trail _ hc]
          | cons t rest2 =>
            simp only [List.cons_append]
            by_cases h3 : isTrailSurrogate (t &&& 0xffff) = true
            · have hn : rest2.length ≤ n := by
                simp only [List.length_cons] at hs
                omega
              simp [h3, ih rest2 c hn hc]
            · simp [h3]
        · rw [if_neg h2]
          have hn : rest.length ≤ n := by
            simp only [List.length_cons] at hs
            omega
          simp [ih rest c hn hc]

/-- Claim C9, amended.  In checked mode the decoder never indexes past the
input: the lead-surrogate branch carries an explicit `i >= N` bounds check
that calls `terminate()`, so an input whose final code unit is a lead
surrogate aborts (whether that unit is reached as an iteration start or as
the would-be trail of a preceding lead), and never reads out of bounds. -/
theorem utf16_checked_lead_at_end_aborts (s : Buf) (c : Nat)
    (hc : isLeadSurrogate (c &&& 0xffff) = true) :
    utf16emit true (s ++ [c]) = U16Res.abort :=
  utf16_checked_lead_at_end_aborts_aux s.length s c (Nat.le_refl _) hc

/-- Witness for the amended claim C9: a lone lead surrogate `{0xD800}`
aborts in checked mode. -/
theorem utf16_checked_lead_at_end_aborts_witness :
    utf16emit true ([] ++ [0xD800]) = U16Res.abort :=
  utf16_checked_lead_at_end_aborts [] 0xD800 (by decide)

end Metastr
